import Mathlib

/-!
Verification development for the `rust-il2-test-utils` repository.

The repository has two modules:
* `src/testdir/mod.rs` — `TestDirUtils`, a managed scratch directory for unit
  tests (construction, file create/read/delete, reset, drop-time cleanup);
* `src/samples/mod.rs` — pure slice-filling helpers (`fill_with_seq_gen`, ...).

The filesystem is modelled as a finite association list from paths (lists of
components) to entries.  Symbolic links are modelled as opaque leaf entries
tagged with what they resolve to (a file, a directory, or nothing); operations
that would read *through* a symlink's target are modelled as I/O errors, which
only restricts the set of successful executions the success-conditioned
theorems quantify over.  File contents are opaque byte sequences, modelled as
`List Nat`.  Relative file names are modelled as single path components, as
used by every call site in the repository.
-/

namespace TestUtils

/-- A filesystem path, as its list of components.  `[]` is the anchor the
process resolves relative paths against (for absolute paths, the filesystem
root); `Path::join` with a single relative component appends it. -/
abbrev Path := List String

/-- What a symbolic link resolves to (its target is otherwise not modelled). -/
inductive SymKind
  | toFile
  | toDir
  | dangling
deriving DecidableEq, Repr

/-- A directory entry: a regular file with contents, a directory, or a
symbolic link. -/
inductive Entry
  | file (contents : List Nat)
  | dir
  | symlink (k : SymKind)
deriving DecidableEq, Repr

/-- A filesystem state: a finite map from paths to entries, as an association
list (first binding wins). -/
abbrev Fs := List (Path × Entry)

/-- Look up the entry stored at a path. -/
def fsGet : Fs → Path → Option Entry
  | [], _ => none
  | (q, e) :: rest, p => if q = p then some e else fsGet rest p

/-- Keep only the bindings whose key satisfies `f`. -/
def fsFilterKeys (fs : Fs) (f : Path → Bool) : Fs :=
  fs.filter (fun pe => f pe.1)

/-- Remove every binding at exactly the path `p`. -/
def fsRemoveKey (fs : Fs) (p : Path) : Fs :=
  fsFilterKeys fs (fun k => decide (k ≠ p))

/-- `pathUnder p q` holds when `p` is an initial segment of `q`
(`q` lies at or below `p` in the tree). -/
def pathUnder : Path → Path → Bool
  | [], _ => true
  | _ :: _, [] => false
  | a :: ps, b :: qs => a = b && pathUnder ps qs

/-- Remove the binding at `p` and every binding below it. -/
def fsRemoveTree (fs : Fs) (p : Path) : Fs :=
  fsFilterKeys fs (fun k => !pathUnder p k)

/-- Store entry `e` at path `p`, replacing any previous binding. -/
def fsSet (fs : Fs) (p : Path) (e : Entry) : Fs :=
  (p, e) :: fsRemoveKey fs p

/-- Model of `std::path::Path::exists`: follows a final symlink, so a dangling
symlink does not "exist". -/
def pathExists (fs : Fs) (p : Path) : Bool :=
  match fsGet fs p with
  | some (.file _) => true
  | some .dir => true
  | some (.symlink .toFile) => true
  | some (.symlink .toDir) => true
  | some (.symlink .dangling) => false
  | none => false

/-- Model of `std::path::Path::is_file`: follows a final symlink, so it is
true exactly for a regular file or a symlink resolving to one. -/
def isFile (fs : Fs) (p : Path) : Bool :=
  match fsGet fs p with
  | some (.file _) => true
  | some (.symlink .toFile) => true
  | _ => false

/-- Whether `p` can serve as the parent directory of a new entry.  The empty
path is the always-existing anchor. -/
def dirExists (fs : Fs) (p : Path) : Bool :=
  match p with
  | [] => true
  | _ => match fsGet fs p with
         | some .dir => true
         | _ => false

/-- The error kinds of `std::io::Error` that the modelled primitives can
surface. -/
inductive IoError
  | notFound
  | isDir
  | notDir
  | alreadyExists
deriving DecidableEq, Repr

/-- Model of `std::fs::remove_file`: removes a regular file or a symlink
(without following it); fails on a directory or a missing path. -/
def removeFile (fs : Fs) (p : Path) : Except IoError Fs :=
  match fsGet fs p with
  | some (.file _) => .ok (fsRemoveKey fs p)
  | some (.symlink _) => .ok (fsRemoveKey fs p)
  | some .dir => .error .isDir
  | none => .error .notFound

/-- Model of `std::fs::remove_dir_all`: removes a directory and everything
below it; fails when the path is not a directory. -/
def removeDirAll (fs : Fs) (p : Path) : Except IoError Fs :=
  match fsGet fs p with
  | some .dir => .ok (fsRemoveTree fs p)
  | some _ => .error .notDir
  | none => .error .notFound

/-- Model of `std::fs::write`: creates or truncates the file at `p`.  Requires
the parent directory to exist; fails on a directory, and (conservatively) on a
symlink, whose target is not modelled. -/
def fsWrite (fs : Fs) (p : Path) (contents : List Nat) : Except IoError Fs :=
  if dirExists fs p.dropLast then
    match fsGet fs p with
    | some .dir => .error .isDir
    | some (.symlink _) => .error .notFound
    | _ => .ok (fsSet fs p (.file contents))
  else .error .notFound

/-- Model of `std::fs::read`: returns the exact byte contents of the file at
`p`; fails when it is absent or not a regular file. -/
def fsRead (fs : Fs) (p : Path) : Except IoError (List Nat) :=
  match fsGet fs p with
  | some (.file c) => .ok c
  | some .dir => .error .isDir
  | some (.symlink _) => .error .notFound
  | none => .error .notFound

/-- Worker for `createDirAll`: ensure each successive component exists as a
directory, creating the missing ones. -/
def createDirAllGo : Fs → Path → List String → Except IoError Fs
  | fs, _, [] => .ok fs
  | fs, sofar, c :: rest =>
    let q := sofar ++ [c]
    match fsGet fs q with
    | some .dir => createDirAllGo fs q rest
    | none => createDirAllGo (fsSet fs q .dir) q rest
    | some _ => .error .alreadyExists

/-- Model of `std::fs::create_dir_all`: creates the directory at `p` together
with all missing ancestors; fails when a component exists as a non-directory. -/
def createDirAll (fs : Fs) (p : Path) : Except IoError Fs :=
  createDirAllGo fs [] p

/-- Whether `q` is a direct child of `p`. -/
def isChildPath (p q : Path) : Bool :=
  pathUnder p q && (q.length == p.length + 1)

/-- Model of `std::fs::read_dir`: the paths of the entries directly under `p`,
in binding order. -/
def readDirPaths (fs : Fs) (p : Path) : List Path :=
  (fs.map Prod.fst).filter (fun q => isChildPath p q)

/-- The `TestDirUtils` struct of `src/testdir/mod.rs` (lines 56-59): the path
of the managed directory and the `delete_on_terminate` flag. -/
structure TestDirUtils where
  test_dir : Path
  delete_on_terminate : Bool
deriving DecidableEq, Repr

namespace TestDirUtils

/-- `TestDirUtils::DEFAULT_TEST_DIR` (line 63). -/
def default_test_dir : String := "test_dir.tmp"

/-- The rendering of `std::thread::ThreadId` produced by `format!("{:?}", id)`:
the string `ThreadId(` followed by the decimal numeric id and `)`.  The id is
modelled as a `Nat`. -/
def threadIdRepr (tid : Nat) : String :=
  "ThreadId(" ++ Nat.repr tid ++ ")"

/-- `TestDirUtils::create_unique_name_for_thread` (lines 118-120):
`format!("{}-{:?}", name, std::thread::current().id())`. -/
def create_unique_name_for_thread (name : String) (tid : Nat) : String :=
  name ++ "-" ++ threadIdRepr tid

/-- `TestDirUtils::with_root` (lines 89-102).  The `?` operator is modelled by
the matches on the intermediate `Except` values.  Note the source performs no
root/parent validation of `test_root`. -/
def with_root (fs : Fs) (test_root : Path) (name : String) (tid : Nat) :
    Except IoError (Fs × TestDirUtils) :=
  let unique_test_dir := create_unique_name_for_thread name tid
  let full_path := test_root ++ [unique_test_dir]
  match (if isFile fs full_path then removeFile fs full_path else .ok fs) with
  | .error e => .error e
  | .ok fs1 =>
    match (if pathExists fs1 full_path then .ok fs1 else createDirAll fs1 full_path) with
    | .error e => .error e
    | .ok fs2 => .ok (fs2, { test_dir := full_path, delete_on_terminate := true })

/-- `TestDirUtils::new` (lines 72-74). -/
def new (fs : Fs) (name : String) (tid : Nat) : Except IoError (Fs × TestDirUtils) :=
  with_root fs [default_test_dir] name tid

/-- `TestDirUtils::get_test_file_path` (lines 146-149). -/
def get_test_file_path (h : TestDirUtils) (name : String) : Path :=
  h.test_dir ++ [name]

/-- `TestDirUtils::create_test_file` (lines 158-163). -/
def create_test_file (fs : Fs) (h : TestDirUtils) (name : String)
    (contents : List Nat) : Except IoError (Fs × Path) :=
  let full_path := get_test_file_path h name
  match fsWrite fs full_path contents with
  | .error e => .error e
  | .ok fs1 => .ok (fs1, full_path)

/-- `TestDirUtils::touch_test_file` (lines 173-175). -/
def touch_test_file (fs : Fs) (h : TestDirUtils) (name : String) :
    Except IoError (Fs × Path) :=
  create_test_file fs h name []

/-- `TestDirUtils::read_test_file` (lines 184-188). -/
def read_test_file (fs : Fs) (h : TestDirUtils) (name : String) :
    Except IoError (List Nat) :=
  fsRead fs (get_test_file_path h name)

/-- `TestDirUtils::delete_test_file` (lines 196-204). -/
def delete_test_file (fs : Fs) (h : TestDirUtils) (name : String) :
    Except IoError Fs :=
  let p := get_test_file_path h name
  if pathExists fs p then removeFile fs p else .ok fs

/-- The loop body of `TestDirUtils::reset` (lines 129-141): for each listed
entry, look at its (symlink-aware) file type; files and symlinks go through
`remove_file`, directories through `remove_dir_all`. -/
def resetGo : Fs → List Path → Except IoError Fs
  | fs, [] => .ok fs
  | fs, q :: rest =>
    match fsGet fs q with
    | some (.file _) => resetGo (fsRemoveKey fs q) rest
    | some (.symlink _) => resetGo (fsRemoveKey fs q) rest
    | some .dir => resetGo (fsRemoveTree fs q) rest
    | none => .error .notFound

/-- `TestDirUtils::reset` (lines 128-143): iterate `read_dir(test_dir)` and
delete each entry. -/
def reset (fs : Fs) (h : TestDirUtils) : Except IoError Fs :=
  match fsGet fs h.test_dir with
  | some .dir => resetGo fs (readDirPaths fs h.test_dir)
  | some _ => .error .notDir
  | none => .error .notFound

/-- `impl Drop for TestDirUtils` (lines 207-213): when `delete_on_terminate`
is set, `remove_dir_all(test_dir).unwrap()`; an `.error` outcome models the
panic of the `unwrap`. -/
def drop (fs : Fs) (h : TestDirUtils) : Except IoError Fs :=
  if h.delete_on_terminate then removeDirAll fs h.test_dir else .ok fs

end TestDirUtils

/-- `fill_with_seq_gen` of `src/samples/mod.rs` (lines 82-88): overwrite each
slot in order with the running value, stepping it by `g` after each slot. -/
def fill_with_seq_gen {α : Type} : List α → α → (α → α) → List α
  | [], _, _ => []
  | _ :: ts, curr, g => curr :: fill_with_seq_gen ts (g curr) g

/-- Filesystem well-formedness around a directory `root`, as every real
filesystem state satisfies it: any entry lying two or more levels below `root`
has its direct ancestor under `root` present as a directory (no orphan
descendants).  Checked only over the finitely many bindings, so it is
executable. -/
def parentsOk (fs : Fs) (root : Path) : Bool :=
  fs.all fun pe =>
    if pathUnder root pe.1 then
      match pe.1.drop root.length with
      | [] => true
      | [_] => true
      | c :: _ :: _ =>
        match fsGet fs (root ++ [c]) with
        | some .dir => true
        | _ => false
    else true

/-- The numeric value of a decimal digit character. -/
def chVal (c : Char) : Nat := c.toNat - 48

/-- Evaluate a decimal digit string into the number it denotes. -/
def evalDigits : Nat → List Char → Nat
  | acc, [] => acc
  | acc, c :: cs => evalDigits (acc * 10 + chVal c) cs

/-! ### Basic facts about the filesystem model -/

theorem fsGet_filterKeys (fs : Fs) (f : Path → Bool) (p : Path) :
    fsGet (fsFilterKeys fs f) p = if f p then fsGet fs p else none := by
  induction fs with
  | nil => simp [fsFilterKeys, fsGet]
  | cons pe rest ih =>
    obtain ⟨q, e⟩ := pe
    simp only [fsFilterKeys, List.filter_cons] at ih ⊢
    by_cases hq : f q <;> by_cases hqp : q = p <;>
      simp_all [fsGet]

theorem fsGet_removeKey (fs : Fs) (q p : Path) :
    fsGet (fsRemoveKey fs q) p = if p = q then none else fsGet fs p := by
  rw [fsRemoveKey, fsGet_filterKeys]
  by_cases h : p = q <;> simp [h]

theorem fsGet_removeTree (fs : Fs) (q p : Path) :
    fsGet (fsRemoveTree fs q) p = if pathUnder q p then none else fsGet fs p := by
  rw [fsRemoveTree, fsGet_filterKeys]
  by_cases h : pathUnder q p <;> simp [h]

theorem fsGet_set_self (fs : Fs) (p : Path) (e : Entry) :
    fsGet (fsSet fs p e) p = some e := by
  simp [fsSet, fsGet]

theorem fsGet_set_ne (fs : Fs) (p : Path) (e : Entry) (q : Path) (h : q ≠ p) :
    fsGet (fsSet fs p e) q = fsGet fs q := by
  simp only [fsSet, fsGet]
  rw [if_neg (fun hpq => h hpq.symm), fsGet_removeKey, if_neg h]

theorem pathUnder_iff (p q : Path) : pathUnder p q = true ↔ ∃ r, q = p ++ r := by
  induction p generalizing q with
  | nil => simp [pathUnder]
  | cons a ps ih =>
    cases q with
    | nil =>
      simp only [pathUnder, List.cons_append]
      constructor
      · intro h
        exact absurd h (by simp)
      · rintro ⟨r, hr⟩
        exact absurd hr (by simp)
    | cons b qs =>
      simp only [pathUnder, Bool.and_eq_true, decide_eq_true_eq, ih, List.cons_append,
        List.cons.injEq]
      constructor
      · rintro ⟨rfl, r, rfl⟩
        exact ⟨r, rfl, rfl⟩
      · rintro ⟨r, rfl, rfl⟩
        exact ⟨rfl, r, rfl⟩

theorem pathUnder_append (p r : Path) : pathUnder p (p ++ r) = true :=
  (pathUnder_iff p (p ++ r)).2 ⟨r, rfl⟩

theorem pathUnder_refl (p : Path) : pathUnder p p = true := by
  simpa using pathUnder_append p []

theorem fsGet_isSome_iff_mem (fs : Fs) (p : Path) :
    (fsGet fs p).isSome ↔ p ∈ fs.map Prod.fst := by
  induction fs with
  | nil => simp [fsGet]
  | cons pe rest ih =>
    obtain ⟨q, e⟩ := pe
    by_cases h : q = p
    · subst h
      rw [List.map_cons]
      constructor
      · intro _
        exact List.mem_cons_self _ _
      · intro _
        show (if q = q then some e else fsGet rest q).isSome = true
        rw [if_pos rfl]
        rfl
    · rw [List.map_cons]
      simp only [fsGet, if_neg h, List.mem_cons]
      rw [ih]
      constructor
      · exact Or.inr
      · rintro (rfl | hm)
        · exact absurd rfl h
        · exact hm

theorem isChildPath_iff (p q : Path) :
    isChildPath p q = true ↔ ∃ c, q = p ++ [c] := by
  simp only [isChildPath, Bool.and_eq_true, pathUnder_iff, beq_iff_eq]
  constructor
  · rintro ⟨⟨r, rfl⟩, hlen⟩
    cases r with
    | nil => simp at hlen
    | cons c rs =>
      cases rs with
      | nil => exact ⟨c, rfl⟩
      | cons d rs' =>
        simp only [List.length_append, List.length_cons, List.length_nil] at hlen
        omega
  · rintro ⟨c, rfl⟩
    exact ⟨⟨[c], rfl⟩, by simp⟩

theorem sibling_not_under (p : Path) (c1 c2 : String) (h : c1 ≠ c2) :
    pathUnder (p ++ [c1]) (p ++ [c2]) = false := by
  rw [Bool.eq_false_iff]
  intro hu
  obtain ⟨r, hr⟩ := (pathUnder_iff _ _).1 hu
  rw [List.append_assoc] at hr
  have := List.append_cancel_left hr
  simp only [List.singleton_append, List.cons.injEq] at this
  exact h this.1.symm

theorem child_not_under (p : Path) (c : String) :
    pathUnder (p ++ [c]) p = false := by
  rw [Bool.eq_false_iff]
  intro hu
  obtain ⟨r, hr⟩ := (pathUnder_iff _ _).1 hu
  have hlen := congrArg List.length hr
  simp only [List.length_append, List.length_cons, List.length_nil] at hlen
  omega

theorem fsWrite_ok_eq (fs fs' : Fs) (p : Path) (c : List Nat)
    (h : fsWrite fs p c = .ok fs') : fs' = fsSet fs p (.file c) := by
  unfold fsWrite at h
  split at h
  · split at h <;> simp_all
  · simp at h

/-! ### Decimal rendering of naturals (`Nat.repr`) -/

theorem chVal_digitChar (d : Nat) (h : d < 10) : chVal (Nat.digitChar d) = d := by
  interval_cases d <;> decide

theorem toDigitsCore_eval (fuel n : Nat) (acc : List Char) (h : n < fuel) :
    evalDigits 0 (Nat.toDigitsCore 10 fuel n acc) = evalDigits n acc := by
  induction fuel generalizing n acc with
  | zero => omega
  | succ f ih =>
    simp only [Nat.toDigitsCore]
    by_cases h0 : n / 10 = 0
    · rw [if_pos h0]
      show evalDigits (0 * 10 + chVal (Nat.digitChar (n % 10))) acc = evalDigits n acc
      rw [chVal_digitChar (n % 10) (Nat.mod_lt _ (by omega))]
      congr 1
      omega
    · rw [if_neg h0]
      have hdiv : n / 10 < f := by
        have := Nat.div_lt_self (show 0 < n by omega) (show 1 < 10 by omega)
        omega
      rw [ih (n / 10) _ hdiv]
      show evalDigits (n / 10 * 10 + chVal (Nat.digitChar (n % 10))) acc = evalDigits n acc
      rw [chVal_digitChar (n % 10) (Nat.mod_lt _ (by omega))]
      congr 1
      omega

theorem natRepr_injective (m n : Nat) (h : Nat.repr m = Nat.repr n) : m = n := by
  have h2 : (Nat.toDigitsCore 10 (m + 1) m []).asString
      = (Nat.toDigitsCore 10 (n + 1) n []).asString := h
  have h3 : Nat.toDigitsCore 10 (m + 1) m [] = Nat.toDigitsCore 10 (n + 1) n [] :=
    congrArg String.data h2
  have h4 := congrArg (evalDigits 0) h3
  rw [toDigitsCore_eval (m + 1) m [] (by omega),
    toDigitsCore_eval (n + 1) n [] (by omega)] at h4
  exact h4

/-! ### Behaviour of the reset loop -/

theorem resetGo_ok_none (L : List Path) (p : Path) :
    ∀ fs fs', TestDirUtils.resetGo fs L = .ok fs' → fsGet fs p = none →
      fsGet fs' p = none := by
  induction L with
  | nil =>
    intro fs fs' hok hp
    simp only [TestDirUtils.resetGo] at hok
    cases hok
    exact hp
  | cons q rest ih =>
    intro fs fs' hok hp
    simp only [TestDirUtils.resetGo] at hok
    split at hok
    · exact ih _ _ hok (by rw [fsGet_removeKey]; split <;> simp [hp])
    · exact ih _ _ hok (by rw [fsGet_removeKey]; split <;> simp [hp])
    · exact ih _ _ hok (by rw [fsGet_removeTree]; split <;> simp [hp])
    · simp at hok

theorem resetGo_preserves (p : Path) (L : List Path) :
    ∀ fs fs', (∀ q ∈ L, pathUnder q p = false) →
      TestDirUtils.resetGo fs L = .ok fs' → fsGet fs' p = fsGet fs p := by
  induction L with
  | nil =>
    intro fs fs' _ hok
    simp only [TestDirUtils.resetGo] at hok
    cases hok
    rfl
  | cons q rest ih =>
    intro fs fs' hL hok
    have hq : pathUnder q p = false := hL q (List.mem_cons_self _ _)
    have hrest : ∀ x ∈ rest, pathUnder x p = false :=
      fun x hx => hL x (List.mem_cons_of_mem _ hx)
    have hne : p ≠ q := by
      intro hpq
      subst hpq
      rw [pathUnder_refl] at hq
      simp at hq
    simp only [TestDirUtils.resetGo] at hok
    split at hok
    · rw [ih _ _ hrest hok, fsGet_removeKey, if_neg hne]
    · rw [ih _ _ hrest hok, fsGet_removeKey, if_neg hne]
    · rw [ih _ _ hrest hok, fsGet_removeTree, if_neg (by simp [hq])]
    · simp at hok

theorem resetGo_kills_mem (q : Path) (L : List Path) :
    ∀ fs fs', TestDirUtils.resetGo fs L = .ok fs' → q ∈ L → fsGet fs' q = none := by
  induction L with
  | nil =>
    intro fs fs' _ hq
    simp at hq
  | cons q' rest ih =>
    intro fs fs' hok hq
    simp only [TestDirUtils.resetGo] at hok
    rcases List.mem_cons.1 hq with rfl | hmem
    · split at hok
      · exact resetGo_ok_none rest q _ _ hok (by rw [fsGet_removeKey, if_pos rfl])
      · exact resetGo_ok_none rest q _ _ hok (by rw [fsGet_removeKey, if_pos rfl])
      · exact resetGo_ok_none rest q _ _ hok
          (by rw [fsGet_removeTree, if_pos (pathUnder_refl q)])
      · simp at hok
    · split at hok
      · exact ih _ _ hok hmem
      · exact ih _ _ hok hmem
      · exact ih _ _ hok hmem
      · simp at hok

theorem resetGo_kills_subtree (root q p : Path) (hp : pathUnder q p = true)
    (L : List Path) :
    ∀ fs fs', q ∈ L → (∀ x ∈ L, isChildPath root x = true) →
      TestDirUtils.resetGo fs L = .ok fs' →
      fsGet fs q = some Entry.dir → fsGet fs' p = none := by
  induction L with
  | nil =>
    intro fs fs' hq _ _ _
    simp at hq
  | cons q' rest ih =>
    intro fs fs' hq hch hok hdir
    simp only [TestDirUtils.resetGo] at hok
    by_cases hqq : q' = q
    · subst hqq
      split at hok
      · next heq =>
        rw [hdir] at heq
        simp at heq
      · next heq =>
        rw [hdir] at heq
        simp at heq
      · next heq =>
        exact resetGo_ok_none rest p _ _ hok (by rw [fsGet_removeTree, if_pos hp])
      · next heq =>
        rw [hdir] at heq
        simp at heq
    · have hmem : q ∈ rest := by
        rcases List.mem_cons.1 hq with h1 | h1
        · exact absurd h1.symm hqq
        · exact h1
      have hch' : ∀ x ∈ rest, isChildPath root x = true :=
        fun x hx => hch x (List.mem_cons_of_mem _ hx)
      obtain ⟨c', rfl⟩ := (isChildPath_iff root q').1 (hch q' (List.mem_cons_self _ _))
      obtain ⟨c, hc⟩ := (isChildPath_iff root q).1 (hch q (List.mem_cons_of_mem _ hmem))
      have hcc : c' ≠ c := by
        intro hcEq
        subst hcEq
        exact hqq hc.symm
      have hnu : pathUnder (root ++ [c']) q = false := by
        rw [hc]
        exact sibling_not_under root c' c hcc
      have hneq : ¬(q = root ++ [c']) := fun hh => hqq hh.symm
      split at hok
      · exact ih _ _ hmem hch' hok (by rw [fsGet_removeKey, if_neg hneq]; exact hdir)
      · exact ih _ _ hmem hch' hok (by rw [fsGet_removeKey, if_neg hneq]; exact hdir)
      · exact ih _ _ hmem hch' hok
          (by rw [fsGet_removeTree, if_neg (by simp [hnu])]; exact hdir)
      · simp at hok

/-! ### Construction helpers -/

theorem with_root_ok_handle (fs fs' : Fs) (root : Path) (name : String)
    (tid : Nat) (h : TestUtils.TestDirUtils)
    (hok : TestDirUtils.with_root fs root name tid = .ok (fs', h)) :
    h = ⟨root ++ [TestDirUtils.create_unique_name_for_thread name tid], true⟩ := by
  unfold TestDirUtils.with_root at hok
  dsimp only at hok
  split at hok
  · simp at hok
  · split at hok
    · simp at hok
    · simp only [Except.ok.injEq, Prod.mk.injEq] at hok
      exact hok.2.symm

theorem parentsOk_spec (fs : Fs) (root : Path) (hpar : parentsOk fs root = true)
    (c : String) (rest : Path)
    (hsome : (fsGet fs (root ++ c :: rest)).isSome) (hne : rest ≠ []) :
    fsGet fs (root ++ [c]) = some Entry.dir := by
  have hmem : (root ++ c :: rest) ∈ fs.map Prod.fst :=
    (fsGet_isSome_iff_mem _ _).1 hsome
  obtain ⟨pe, hpe, hfst⟩ := List.mem_map.1 hmem
  have hall := List.all_eq_true.1 hpar pe hpe
  rw [hfst] at hall
  rw [if_pos (pathUnder_append root (c :: rest))] at hall
  rw [List.drop_left] at hall
  cases rest with
  | nil => exact absurd rfl hne
  | cons d r2 =>
    split at hall
    · next heq => exact absurd heq (by simp)
    · next heq => exact absurd heq (by simp)
    · next c2 x tl heq =>
      have hc2 : c2 = c := by
        simp only [List.cons.injEq] at heq
        exact heq.1.symm
      subst hc2
      split at hall
      · next heq2 => exact heq2
      · next => exact absurd hall (by simp)

theorem create_test_file_ok (fs fs' : Fs) (h : TestUtils.TestDirUtils)
    (name : String) (c : List Nat) (p : Path)
    (hc : TestDirUtils.create_test_file fs h name c = .ok (fs', p)) :
    fs' = fsSet fs (TestDirUtils.get_test_file_path h name) (Entry.file c) ∧
    p = TestDirUtils.get_test_file_path h name := by
  unfold TestDirUtils.create_test_file at hc
  dsimp only at hc
  split at hc
  · simp at hc
  · next fs1 heq =>
    simp only [Except.ok.injEq, Prod.mk.injEq] at hc
    obtain ⟨h1, h2⟩ := hc
    subst h1
    exact ⟨fsWrite_ok_eq _ _ _ _ heq, h2.symm⟩

/-! ### The claims -/

/-- C1: the specification requires that construction with a base path that is
a filesystem root (or any path with no parent) fail with a panic-style error
before any filesystem mutation.  The source of `with_root` contains no such
safeguard, contradicting its own doc comment: evaluated at the root base path
over the empty filesystem, it creates a directory and returns `Ok`, so the
rejected-without-side-effects behaviour the claim requires does not happen. -/
theorem c1_with_root_accepts_root_base :
    TestDirUtils.with_root [] [] "test" 1 =
      .ok ([(["test-ThreadId(1)"], Entry.dir)], ⟨["test-ThreadId(1)"], true⟩) ∧
    fsGet [(["test-ThreadId(1)"], Entry.dir)] ["test-ThreadId(1)"] = some Entry.dir :=
  ⟨rfl, rfl⟩

/-- C2: a successful `create_test_file(name, contents)` followed by
`read_test_file(name)` on the resulting state returns exactly the bytes that
were written, for every handle, relative name and byte sequence. -/
theorem c2_create_then_read (fs fs' : Fs) (h : TestDirUtils) (name : String)
    (contents : List Nat) (p : Path)
    (hc : TestDirUtils.create_test_file fs h name contents = .ok (fs', p)) :
    TestDirUtils.read_test_file fs' h name = .ok contents := by
  obtain ⟨hfs', -⟩ := create_test_file_ok fs fs' h name contents p hc
  unfold TestDirUtils.read_test_file fsRead
  rw [hfs', fsGet_set_self]

theorem c2_witness :
    TestDirUtils.read_test_file [(["d", "a"], Entry.file [7]), (["d"], Entry.dir)]
      ⟨["d"], true⟩ "a" = .ok [7] :=
  c2_create_then_read [(["d"], Entry.dir)]
    [(["d", "a"], Entry.file [7]), (["d"], Entry.dir)]
    ⟨["d"], true⟩ "a" [7] ["d", "a"] rfl

/-- C3: `delete_test_file(name)` removes the file when it exists; when the
file does not exist it succeeds without error and leaves the state unchanged;
and in every successful case no path other than the file's own is affected. -/
theorem c3_delete_test_file_spec (fs : Fs) (h : TestDirUtils) (name : String) :
    (pathExists fs (TestDirUtils.get_test_file_path h name) = false →
      TestDirUtils.delete_test_file fs h name = .ok fs) ∧
    (∀ c, fsGet fs (TestDirUtils.get_test_file_path h name) = some (Entry.file c) →
      ∃ fs', TestDirUtils.delete_test_file fs h name = .ok fs' ∧
        fsGet fs' (TestDirUtils.get_test_file_path h name) = none) ∧
    (∀ fs' q, TestDirUtils.delete_test_file fs h name = .ok fs' →
      q ≠ TestDirUtils.get_test_file_path h name → fsGet fs' q = fsGet fs q) := by
  refine ⟨?_, ?_, ?_⟩
  · intro hne
    unfold TestDirUtils.delete_test_file
    dsimp only
    rw [if_neg (by simp [hne])]
  · intro c hc
    unfold TestDirUtils.delete_test_file
    dsimp only
    rw [if_pos (by simp [pathExists, hc])]
    refine ⟨fsRemoveKey fs (TestDirUtils.get_test_file_path h name), ?_, ?_⟩
    · simp only [removeFile, hc]
    · rw [fsGet_removeKey, if_pos rfl]
  · intro fs' q hok hq
    unfold TestDirUtils.delete_test_file at hok
    dsimp only at hok
    split at hok
    · unfold removeFile at hok
      split at hok
      · cases hok
        rw [fsGet_removeKey, if_neg hq]
      · cases hok
        rw [fsGet_removeKey, if_neg hq]
      · simp at hok
      · simp at hok
    · cases hok
      rfl

theorem c3_witness :
    TestDirUtils.delete_test_file [(["d"], Entry.dir)] ⟨["d"], true⟩ "a" =
      .ok [(["d"], Entry.dir)] :=
  (c3_delete_test_file_spec [(["d"], Entry.dir)] ⟨["d"], true⟩ "a").1 rfl

/-- C4: the claim says an existing symbolic link at the target is deleted
during construction and a real directory then created.  The code tests
`Path::is_file`, which is false for a symlink resolving to a directory, and
then `Path::exists`, which is true for it: evaluated on a state whose target
entry is a symlink to a directory, `with_root` deletes nothing, creates
nothing, and returns the symlink path as the handle's root, contradicting the
claim and the function's own doc comment. -/
theorem c4_with_root_keeps_symlink_to_dir :
    TestDirUtils.with_root
        [(["base"], Entry.dir), (["base", "n-ThreadId(1)"], Entry.symlink .toDir)]
        ["base"] "n" 1 =
      .ok ([(["base"], Entry.dir), (["base", "n-ThreadId(1)"], Entry.symlink .toDir)],
        ⟨["base", "n-ThreadId(1)"], true⟩) ∧
    fsGet [(["base"], Entry.dir), (["base", "n-ThreadId(1)"], Entry.symlink .toDir)]
        ["base", "n-ThreadId(1)"] = some (Entry.symlink .toDir) :=
  ⟨rfl, rfl⟩

/-- C5: on a well-formed state, a successful `reset()` removes every entry
strictly below the root (recursively), while the root itself remains an
existing directory whose listing is empty. -/
theorem c5_reset_clears (fs fs' : Fs) (h : TestDirUtils)
    (hpar : parentsOk fs h.test_dir = true)
    (hok : TestDirUtils.reset fs h = .ok fs') :
    (∀ p, pathUnder h.test_dir p = true → p ≠ h.test_dir → fsGet fs' p = none) ∧
    fsGet fs' h.test_dir = some Entry.dir ∧
    readDirPaths fs' h.test_dir = [] := by
  unfold TestDirUtils.reset at hok
  split at hok
  · next heq =>
    have hch : ∀ x ∈ readDirPaths fs h.test_dir, isChildPath h.test_dir x = true :=
      fun x hx => (List.mem_filter.1 hx).2
    have hkill : ∀ p, pathUnder h.test_dir p = true → p ≠ h.test_dir →
        fsGet fs' p = none := by
      intro p hp hne
      obtain ⟨r, rfl⟩ := (pathUnder_iff _ _).1 hp
      cases r with
      | nil => simp at hne
      | cons c rest =>
        cases hfs : fsGet fs (h.test_dir ++ c :: rest) with
        | none => exact resetGo_ok_none _ _ _ _ hok hfs
        | some e =>
          cases rest with
          | nil =>
            have hmem : (h.test_dir ++ [c]) ∈ readDirPaths fs h.test_dir :=
              List.mem_filter.2 ⟨(fsGet_isSome_iff_mem fs _).1 (by rw [hfs]; rfl),
                (isChildPath_iff _ _).2 ⟨c, rfl⟩⟩
            exact resetGo_kills_mem _ _ _ _ hok hmem
          | cons d r2 =>
            have hdir := parentsOk_spec fs h.test_dir hpar c (d :: r2)
              (by rw [hfs]; rfl) (by simp)
            have hmem : (h.test_dir ++ [c]) ∈ readDirPaths fs h.test_dir :=
              List.mem_filter.2 ⟨(fsGet_isSome_iff_mem fs _).1 (by rw [hdir]; rfl),
                (isChildPath_iff _ _).2 ⟨c, rfl⟩⟩
            have hpu : pathUnder (h.test_dir ++ [c]) (h.test_dir ++ c :: d :: r2) = true :=
              (pathUnder_iff _ _).2 ⟨d :: r2, by simp⟩
            exact resetGo_kills_subtree h.test_dir (h.test_dir ++ [c]) _ hpu _ _ _
              hmem hch hok hdir
    have hroot : fsGet fs' h.test_dir = some Entry.dir := by
      have hpres := resetGo_preserves h.test_dir (readDirPaths fs h.test_dir) _ _
        (by
          intro q hq
          obtain ⟨c, rfl⟩ := (isChildPath_iff _ _).1 (hch q hq)
          exact child_not_under _ c) hok
      rw [hpres, heq]
    refine ⟨hkill, hroot, ?_⟩
    cases hfil : readDirPaths fs' h.test_dir with
    | nil => rfl
    | cons q qs =>
      exfalso
      have hq : q ∈ readDirPaths fs' h.test_dir := by
        rw [hfil]
        exact List.mem_cons_self _ _
      obtain ⟨hq1, hq2⟩ := List.mem_filter.1 hq
      obtain ⟨c, rfl⟩ := (isChildPath_iff _ _).1 hq2
      have hne : h.test_dir ++ [c] ≠ h.test_dir := by
        intro hEq
        have := congrArg List.length hEq
        simp at this
      have hnone := hkill _ (pathUnder_append _ _) hne
      have hsome := (fsGet_isSome_iff_mem fs' _).2 hq1
      rw [hnone] at hsome
      simp at hsome
  · simp at hok
  · simp at hok

theorem c5_witness :
    fsGet [(["t"], Entry.dir)] ["t", "d", "x"] = none ∧
    fsGet [(["t"], Entry.dir)] ["t"] = some Entry.dir := by
  have hs := c5_reset_clears
    [(["t"], Entry.dir), (["t", "a"], Entry.file [1, 2]),
      (["t", "s"], Entry.symlink .dangling), (["t", "d"], Entry.dir),
      (["t", "d", "x"], Entry.file [])]
    [(["t"], Entry.dir)] ⟨["t"], true⟩ (by decide) rfl
  exact ⟨hs.1 ["t", "d", "x"] (by decide) (by decide), hs.2.1⟩

/-- C6: on release, when `delete_on_terminate` is set (as it is by every
successful construction) the root directory and everything under it is
removed and absent afterwards, everything outside it untouched; when the flag
is cleared, release leaves the whole state unchanged. -/
theorem c6_drop_spec (fs : Fs) (h : TestDirUtils) :
    (h.delete_on_terminate = true → fsGet fs h.test_dir = some Entry.dir →
      ∃ fs', TestDirUtils.drop fs h = .ok fs' ∧
        (∀ q, pathUnder h.test_dir q = true → fsGet fs' q = none) ∧
        (∀ q, pathUnder h.test_dir q = false → fsGet fs' q = fsGet fs q)) ∧
    (h.delete_on_terminate = false → TestDirUtils.drop fs h = .ok fs) ∧
    (∀ fs0 fs0' root name tid (h' : TestDirUtils),
      TestDirUtils.with_root fs0 root name tid = .ok (fs0', h') →
      h'.delete_on_terminate = true) := by
  refine ⟨?_, ?_, ?_⟩
  · intro hflag hdir
    refine ⟨fsRemoveTree fs h.test_dir, ?_, ?_, ?_⟩
    · unfold TestDirUtils.drop
      rw [if_pos hflag]
      simp only [removeDirAll, hdir]
    · intro q hq
      rw [fsGet_removeTree, if_pos hq]
    · intro q hq
      rw [fsGet_removeTree, if_neg (by simp [hq])]
  · intro hflag
    unfold TestDirUtils.drop
    rw [if_neg (by simp [hflag])]
  · intro fs0 fs0' root name tid h' hok
    rw [with_root_ok_handle fs0 fs0' root name tid h' hok]

theorem c6_witness :
    ∃ fs', TestDirUtils.drop [(["t"], Entry.dir), (["t", "a"], Entry.file [1])]
        ⟨["t"], true⟩ = .ok fs' ∧
      (∀ q, pathUnder ["t"] q = true → fsGet fs' q = none) ∧
      (∀ q, pathUnder ["t"] q = false →
        fsGet fs' q = fsGet [(["t"], Entry.dir), (["t", "a"], Entry.file [1])] q) :=
  (c6_drop_spec [(["t"], Entry.dir), (["t", "a"], Entry.file [1])] ⟨["t"], true⟩).1
    rfl rfl

/-- C7: two constructions with the same label from distinct thread identities
yield handles with distinct root paths, and a file created under the first
handle changes nothing a read through the second handle can observe. -/
theorem c7_thread_isolation (fsa fsb fsa' fsb' : Fs) (root : Path)
    (label : String) (t1 t2 : Nat) (h1 h2 : TestDirUtils)
    (hne : t1 ≠ t2)
    (hc1 : TestDirUtils.with_root fsa root label t1 = .ok (fsa', h1))
    (hc2 : TestDirUtils.with_root fsb root label t2 = .ok (fsb', h2)) :
    h1.test_dir ≠ h2.test_dir ∧
    ∀ fs fs' (name : String) (c : List Nat) (p : Path),
      TestDirUtils.create_test_file fs h1 name c = .ok (fs', p) →
      TestDirUtils.read_test_file fs' h2 name =
        TestDirUtils.read_test_file fs h2 name := by
  have e1 := with_root_ok_handle _ _ _ _ _ _ hc1
  have e2 := with_root_ok_handle _ _ _ _ _ _ hc2
  have hdir : h1.test_dir ≠ h2.test_dir := by
    rw [e1, e2]
    intro hEq
    apply hne
    have hu : TestDirUtils.create_unique_name_for_thread label t1 =
        TestDirUtils.create_unique_name_for_thread label t2 := by
      have h2l := List.append_cancel_left hEq
      simpa using h2l
    unfold TestDirUtils.create_unique_name_for_thread TestDirUtils.threadIdRepr at hu
    apply natRepr_injective
    have hd := congrArg String.data hu
    simp only [String.data_append, List.append_assoc] at hd
    have x1 := List.append_cancel_left hd
    have x2 := List.append_cancel_left x1
    have x3 := List.append_cancel_left x2
    exact congrArg String.mk (List.append_cancel_right x3)
  refine ⟨hdir, ?_⟩
  intro fs fs' name c p hcr
  obtain ⟨hfs', -⟩ := create_test_file_ok fs fs' h1 name c p hcr
  have hpp : TestDirUtils.get_test_file_path h2 name ≠
      TestDirUtils.get_test_file_path h1 name := by
    unfold TestDirUtils.get_test_file_path
    intro hEq
    exact hdir (List.append_cancel_right hEq).symm
  unfold TestDirUtils.read_test_file fsRead
  rw [hfs', fsGet_set_ne _ _ _ _ hpp]

theorem c7_witness :
    (⟨["b", "l-ThreadId(1)"], true⟩ : TestDirUtils).test_dir ≠
      (⟨["b", "l-ThreadId(2)"], true⟩ : TestDirUtils).test_dir ∧
    ∀ fs fs' (name : String) (c : List Nat) (p : Path),
      TestDirUtils.create_test_file fs ⟨["b", "l-ThreadId(1)"], true⟩ name c =
        .ok (fs', p) →
      TestDirUtils.read_test_file fs' ⟨["b", "l-ThreadId(2)"], true⟩ name =
        TestDirUtils.read_test_file fs ⟨["b", "l-ThreadId(2)"], true⟩ name :=
  c7_thread_isolation [] [] [(["b", "l-ThreadId(1)"], Entry.dir), (["b"], Entry.dir)]
    [(["b", "l-ThreadId(2)"], Entry.dir), (["b"], Entry.dir)] ["b"] "l" 1 2
    ⟨["b", "l-ThreadId(1)"], true⟩ ⟨["b", "l-ThreadId(2)"], true⟩
    (by decide) rfl rfl

/-- C8: the computed target is exactly the base path joined with
`label + "-" + context id`, so it depends only on the base path, the label
and the thread identity: any two successful constructions with the same
arguments (in particular, sequential reruns from the same thread) produce the
same root path. -/
theorem c8_target_deterministic (fs fs' : Fs) (root : Path) (label : String)
    (tid : Nat) (h : TestDirUtils)
    (hok : TestDirUtils.with_root fs root label tid = .ok (fs', h)) :
    h.test_dir = root ++ [label ++ "-" ++ TestDirUtils.threadIdRepr tid] ∧
    ∀ fs2 fs2' (h2 : TestDirUtils),
      TestDirUtils.with_root fs2 root label tid = .ok (fs2', h2) →
      h2.test_dir = h.test_dir := by
  have e := with_root_ok_handle _ _ _ _ _ _ hok
  constructor
  · rw [e]
    rfl
  · intro fs2 fs2' h2 hok2
    rw [with_root_ok_handle _ _ _ _ _ _ hok2, e]

theorem c8_witness :
    (⟨["b", "l-ThreadId(1)"], true⟩ : TestDirUtils).test_dir =
      ["b"] ++ ["l" ++ "-" ++ TestDirUtils.threadIdRepr 1] ∧
    ∀ fs2 fs2' (h2 : TestDirUtils),
      TestDirUtils.with_root fs2 ["b"] "l" 1 = .ok (fs2', h2) →
      h2.test_dir = (⟨["b", "l-ThreadId(1)"], true⟩ : TestDirUtils).test_dir :=
  c8_target_deterministic [] [(["b", "l-ThreadId(1)"], Entry.dir), (["b"], Entry.dir)]
    ["b"] "l" 1 ⟨["b", "l-ThreadId(1)"], true⟩ rfl

/-- C9: `touch_test_file(name)` is the very same computation as
`create_test_file(name, [])`; in particular a successful call returns the
file's path and leaves it readable with empty contents. -/
theorem c9_touch_eq_create (fs : Fs) (h : TestDirUtils) (name : String) :
    TestDirUtils.touch_test_file fs h name =
      TestDirUtils.create_test_file fs h name [] ∧
    ∀ fs' p, TestDirUtils.touch_test_file fs h name = .ok (fs', p) →
      p = TestDirUtils.get_test_file_path h name ∧
      TestDirUtils.read_test_file fs' h name = .ok [] := by
  refine ⟨rfl, ?_⟩
  intro fs' p hok
  obtain ⟨hfs', hp⟩ := create_test_file_ok fs fs' h name [] p hok
  refine ⟨hp, ?_⟩
  unfold TestDirUtils.read_test_file fsRead
  rw [hfs', fsGet_set_self]

theorem c9_witness :
    TestDirUtils.touch_test_file [(["d"], Entry.dir)] ⟨["d"], true⟩ "a" =
      TestDirUtils.create_test_file [(["d"], Entry.dir)] ⟨["d"], true⟩ "a" [] ∧
    (["d", "a"] : Path) = TestDirUtils.get_test_file_path ⟨["d"], true⟩ "a" ∧
    TestDirUtils.read_test_file [(["d", "a"], Entry.file []), (["d"], Entry.dir)]
      ⟨["d"], true⟩ "a" = .ok [] := by
  have hs := c9_touch_eq_create [(["d"], Entry.dir)] ⟨["d"], true⟩ "a"
  exact ⟨hs.1, hs.2 [(["d", "a"], Entry.file []), (["d"], Entry.dir)] ["d", "a"] rfl⟩

/-- C10: after `fill_with_seq_gen(target, initial, g)` the slice has its
original length and the element at each index `i` is `g` iterated `i` times
on `initial`. -/
theorem c10_fill_with_seq_gen_spec {α : Type} (target : List α) (initial : α)
    (g : α → α) :
    (fill_with_seq_gen target initial g).length = target.length ∧
    ∀ i, i < target.length →
      (fill_with_seq_gen target initial g).get? i = some (g^[i] initial) := by
  induction target generalizing initial with
  | nil => exact ⟨rfl, fun i hi => absurd hi (by simp)⟩
  | cons t ts ih =>
    refine ⟨?_, ?_⟩
    · simp [fill_with_seq_gen, (ih (g initial)).1]
    · intro i hi
      cases i with
      | zero => simp [fill_with_seq_gen]
      | succ j =>
        have hj := (ih (g initial)).2 j (by simpa using hi)
        simp only [fill_with_seq_gen, List.get?_cons_succ, hj,
          Function.iterate_succ_apply]

theorem c10_witness :
    (1 : Nat) < ([9, 9, 9] : List Nat).length ∧
      (fill_with_seq_gen [9, 9, 9] (4 : Nat) Nat.succ).get? 1 =
        some (Nat.succ^[1] 4) :=
  ⟨by decide, (c10_fill_with_seq_gen_spec [9, 9, 9] 4 Nat.succ).2 1 (by decide)⟩

end TestUtils
